import Mathlib

/-!
Shallow embedding of the bitemporal history engine of the repository
(`lex/core/services/bitemporal_signals.py`, `lex/core/services/Bitemporal.py`,
`lex/core/services/MetaHistory.py`, `lex/process_admin/utils/bitemporal_sync.py`).

Timestamps are modelled as `Nat`; nullable timestamps as `Option Nat`.
Stores (Django querysets) are modelled as lists of records; `order_by`
is modelled as a stable insertion sort over the queried key.
-/

namespace LexBitemporal

/-- The `history_type` / `meta_history_type` marker:
`"+"` (Created), `"~"` (Changed), `"-"` (Deleted). -/
inductive HType
  | created
  | changed
  | deleted
deriving DecidableEq

/-- The `meta_task_status` values: NONE, SCHEDULED, DONE, CANCELLED. -/
inductive TaskStatus
  | statusNone
  | scheduled
  | done
  | cancelled
deriving DecidableEq

/-- One row of a Level-1 History table (produced by `StandardHistory`):
`history_id` is the store-assigned pk, `entity_key` the back-reference to
the tracked entity (`pk_name` / `pk_val` in the handlers), `valid_from` /
`valid_to` the valid-time window, and `snapshot` the copied tracked fields. -/
structure HistoryRecord where
  history_id : Nat
  entity_key : Nat
  valid_from : Nat
  valid_to : Option Nat
  history_type : HType
  snapshot : List Int
deriving DecidableEq

/-- One row of a Level-2 MetaHistory table (produced by
`MetaLevelHistoricalRecords`): `meta_history_id` is the pk,
`history_object_id` the FK to the Level-1 row, `entity_id` the business
pk field copied through from the Level-1 row (the field Django resolves
for `order_by("sys_from", "id")`), and `sys_from` / `sys_to` the
system-time window. -/
structure MetaRecord where
  meta_history_id : Nat
  history_object_id : Nat
  entity_id : Nat
  sys_from : Nat
  sys_to : Option Nat
  meta_history_type : HType
  snapshot : List Int
  meta_task_name : Option String
  meta_task_status : TaskStatus
deriving DecidableEq

/-! ### Ordering keys -/

/-- Lexicographic order on `Nat × Nat` pairs of keys. -/
def pairLe (p q : Nat × Nat) : Prop :=
  p.1 < q.1 ∨ (p.1 = q.1 ∧ p.2 ≤ q.2)

theorem pairLe_total (p q : Nat × Nat) : pairLe p q ∨ pairLe q p := by
  unfold pairLe; omega

theorem pairLe_trans {p q r : Nat × Nat} : pairLe p q → pairLe q r → pairLe p r := by
  unfold pairLe; omega

instance : DecidableRel pairLe := fun _ _ => by
  unfold pairLe; infer_instance

/-- The sort key of `order_by("valid_from", "history_id")`. -/
def hkey (r : HistoryRecord) : Nat × Nat := (r.valid_from, r.history_id)

/-- History records ordered by `(valid_from, history_id)` ascending. -/
def histLe (a b : HistoryRecord) : Prop := pairLe (hkey a) (hkey b)

instance : DecidableRel histLe := fun _ _ => by
  unfold histLe; infer_instance

instance : IsTotal HistoryRecord histLe := ⟨fun _ _ => pairLe_total _ _⟩

instance : IsTrans HistoryRecord histLe := ⟨fun _ _ _ => pairLe_trans⟩

/-- The key Django actually sorts meta records by in
`order_by("sys_from", "id")`: `id` resolves to the business pk field
copied through from the Level-1 row. -/
def mkeySrc (m : MetaRecord) : Nat × Nat := (m.sys_from, m.entity_id)

/-- Meta records ordered as the source orders them. -/
def metaLe (a b : MetaRecord) : Prop := pairLe (mkeySrc a) (mkeySrc b)

instance : DecidableRel metaLe := fun _ _ => by
  unfold metaLe; infer_instance

instance : IsTotal MetaRecord metaLe := ⟨fun _ _ => pairLe_total _ _⟩

instance : IsTrans MetaRecord metaLe := ⟨fun _ _ _ => pairLe_trans⟩

/-- The spec-level sort key for meta records: `(sys_from, meta_id)`. -/
def mkeyLex (m : MetaRecord) : Nat × Nat := (m.sys_from, m.meta_history_id)

/-- Meta records ordered by `(sys_from, meta_id)` ascending. -/
def metaLexLe (a b : MetaRecord) : Prop := pairLe (mkeyLex a) (mkeyLex b)

instance : DecidableRel metaLexLe := fun _ _ => by
  unfold metaLexLe; infer_instance

/-! ### Chain Maintainer (Level 1): on_history_saved__chain_valid_to -/

/-- `valid_from` of the next record in the iteration, `none` past the end. -/
def headValidFrom : List HistoryRecord → Option Nat
  | [] => none
  | s :: _ => some s.valid_from

/-- One persisted `record.save(update_fields=["valid_to"])` performed by the
chain maintainer, together with the refinement flag
`_strict_chaining_update` stamped on the instance. -/
structure SaveOp where
  saved : HistoryRecord
  oldTo : Option Nat
  refinement : Bool
deriving DecidableEq

/-- The loop body of `on_history_saved__chain_valid_to`: walk the sorted
sibling list, set each `valid_to` to the successor's `valid_from`
(`none` for the last record), and record a `SaveOp` for every record
whose `valid_to` actually changed, flagging non-null → non-null changes
as refinements. Returns the resulting records and the saves performed. -/
def chainPass : List HistoryRecord → List HistoryRecord × List SaveOp
  | [] => ([], [])
  | r :: rest =>
    if r.valid_to = headValidFrom rest then
      (r :: (chainPass rest).1, (chainPass rest).2)
    else
      ({ r with valid_to := headValidFrom rest } :: (chainPass rest).1,
        { saved := { r with valid_to := headValidFrom rest }, oldTo := r.valid_to,
          refinement := r.valid_to.isSome && (headValidFrom rest).isSome }
          :: (chainPass rest).2)

/-- The record states produced by the chaining pass, ignoring which of
them had to be persisted. -/
def chainWindows : List HistoryRecord → List HistoryRecord
  | [] => []
  | r :: rest => { r with valid_to := headValidFrom rest } :: chainWindows rest

/-- The sibling set of `on_history_saved__chain_valid_to`:
`HistoryModel.objects.filter(**{pk_name: pk_val}).order_by("valid_from", "history_id")`. -/
def siblingsOf (store : List HistoryRecord) (pk : Nat) : List HistoryRecord :=
  List.insertionSort histLe (store.filter (fun r => r.entity_key == pk))

/-- Model of `on_history_saved__chain_valid_to`: fetch the sibling set
sorted by `(valid_from, history_id)` and run the chaining pass over it. -/
def chainValidTo (store : List HistoryRecord) (pk : Nat) :
    List HistoryRecord × List SaveOp :=
  chainPass (siblingsOf store pk)

/-- The strict-chaining invariant on a list of history records in the
order given: every record's `valid_to` equals the next record's
`valid_from`, and the last record's `valid_to` is `none`. -/
def Chained : List HistoryRecord → Prop
  | [] => True
  | [r] => r.valid_to = none
  | r :: s :: rest => r.valid_to = some s.valid_from ∧ Chained (s :: rest)

instance instChainedDec : (l : List HistoryRecord) → Decidable (Chained l)
  | [] => .isTrue trivial
  | [r] => inferInstanceAs (Decidable (r.valid_to = none))
  | _ :: s :: rest =>
    have : Decidable (Chained (s :: rest)) := instChainedDec (s :: rest)
    inferInstanceAs (Decidable (_ ∧ _))

/-! #### Basic properties of the chaining pass -/

theorem chainPass_cons_of_eq {r : HistoryRecord} {rest : List HistoryRecord}
    (h : r.valid_to = headValidFrom rest) :
    chainPass (r :: rest) = (r :: (chainPass rest).1, (chainPass rest).2) := by
  simp only [chainPass]
  rw [if_pos h]

theorem chainPass_cons_of_ne {r : HistoryRecord} {rest : List HistoryRecord}
    (h : ¬ r.valid_to = headValidFrom rest) :
    chainPass (r :: rest) =
      ({ r with valid_to := headValidFrom rest } :: (chainPass rest).1,
        { saved := { r with valid_to := headValidFrom rest }, oldTo := r.valid_to,
          refinement := r.valid_to.isSome && (headValidFrom rest).isSome }
          :: (chainPass rest).2) := by
  simp only [chainPass]
  rw [if_neg h]

theorem chainPass_fst : ∀ l : List HistoryRecord, (chainPass l).1 = chainWindows l
  | [] => rfl
  | r :: rest => by
    have ih := chainPass_fst rest
    by_cases h : r.valid_to = headValidFrom rest
    · rw [chainPass_cons_of_eq h]
      show r :: (chainPass rest).1 = { r with valid_to := headValidFrom rest } :: chainWindows rest
      rw [← h, ih]
    · rw [chainPass_cons_of_ne h]
      show _ :: (chainPass rest).1 = _ :: chainWindows rest
      rw [ih]

theorem chained_cons_cons {r s : HistoryRecord} {rest : List HistoryRecord} :
    Chained (r :: s :: rest) ↔ r.valid_to = some s.valid_from ∧ Chained (s :: rest) :=
  Iff.rfl

theorem chainWindows_chained : ∀ l : List HistoryRecord, Chained (chainWindows l)
  | [] => trivial
  | [r] => rfl
  | r :: s :: t => by
    have ih := chainWindows_chained (s :: t)
    show Chained ({ r with valid_to := some s.valid_from } ::
      { s with valid_to := headValidFrom t } :: chainWindows t)
    rw [chained_cons_cons]
    exact ⟨rfl, ih⟩

theorem chainPass_chained (l : List HistoryRecord) : Chained (chainPass l).1 := by
  rw [chainPass_fst]; exact chainWindows_chained l

theorem chainWindows_map_hkey : ∀ l : List HistoryRecord,
    (chainWindows l).map hkey = l.map hkey
  | [] => rfl
  | r :: rest => by
    show hkey { r with valid_to := headValidFrom rest } :: (chainWindows rest).map hkey
      = hkey r :: rest.map hkey
    rw [chainWindows_map_hkey rest]
    rfl

theorem chainPass_map_hkey (l : List HistoryRecord) :
    (chainPass l).1.map hkey = l.map hkey := by
  rw [chainPass_fst]; exact chainWindows_map_hkey l

theorem pairwise_of_map_hkey {l₁ l₂ : List HistoryRecord}
    (hmap : l₁.map hkey = l₂.map hkey) (h : l₂.Pairwise histLe) :
    l₁.Pairwise histLe := by
  have h2 : (l₂.map hkey).Pairwise pairLe := List.pairwise_map.mpr h
  rw [← hmap] at h2
  have h3 := List.pairwise_map.mp h2
  exact h3

theorem chainPass_sorted {l : List HistoryRecord} (h : l.Pairwise histLe) :
    (chainPass l).1.Pairwise histLe :=
  pairwise_of_map_hkey (chainPass_map_hkey l) h

/-- If the sibling list already satisfies the invariant, the pass changes
nothing and performs no saves. -/
theorem chainPass_of_chained : ∀ l : List HistoryRecord, Chained l → chainPass l = (l, [])
  | [], _ => rfl
  | [r], h => by
    have h' : r.valid_to = headValidFrom [] := h
    rw [chainPass_cons_of_eq h']
    rfl
  | r :: s :: rest, h => by
    have h1 : r.valid_to = headValidFrom (s :: rest) := h.1
    have ih := chainPass_of_chained (s :: rest) h.2
    rw [chainPass_cons_of_eq h1, ih]

/-- The chaining pass is idempotent: a second run performs zero saves. -/
theorem chainPass_idem (l : List HistoryRecord) :
    chainPass (chainPass l).1 = ((chainPass l).1, []) :=
  chainPass_of_chained _ (chainPass_chained l)

theorem chained_singleton {r : HistoryRecord} (h : Chained [r]) : r.valid_to = none := h

/-! ### Chain Maintainer (Level 2): on_meta_saved__chain_sys_to -/

/-- `sys_from` of the next meta record in the iteration. -/
def headSysFrom : List MetaRecord → Option Nat
  | [] => none
  | s :: _ => some s.sys_from

/-- The loop body of `on_meta_saved__chain_sys_to`: walk the sorted meta
sibling list, set each `sys_to` to the successor's `sys_from` (`none` for
the last record), saving only records whose `sys_to` actually changed.
Returns the resulting records and the records saved. -/
def chainPassMeta : List MetaRecord → List MetaRecord × List MetaRecord
  | [] => ([], [])
  | r :: rest =>
    if r.sys_to = headSysFrom rest then
      (r :: (chainPassMeta rest).1, (chainPassMeta rest).2)
    else
      ({ r with sys_to := headSysFrom rest } :: (chainPassMeta rest).1,
        { r with sys_to := headSysFrom rest } :: (chainPassMeta rest).2)

/-- The sibling set of `on_meta_saved__chain_sys_to`:
`MetaModel.objects.filter(history_object_id=...).order_by("sys_from", "id")`,
modelled as a stable sort of the store over the source's key. -/
def metaSiblingsOf (store : List MetaRecord) (hid : Nat) : List MetaRecord :=
  List.insertionSort metaLe (store.filter (fun m => m.history_object_id == hid))

/-- Model of `on_meta_saved__chain_sys_to`. -/
def chainSysTo (store : List MetaRecord) (hid : Nat) :
    List MetaRecord × List MetaRecord :=
  chainPassMeta (metaSiblingsOf store hid)

/-- The strict-chaining invariant on meta records in the order given. -/
def MetaChained : List MetaRecord → Prop
  | [] => True
  | [m] => m.sys_to = none
  | m :: s :: rest => m.sys_to = some s.sys_from ∧ MetaChained (s :: rest)

instance instMetaChainedDec : (l : List MetaRecord) → Decidable (MetaChained l)
  | [] => .isTrue trivial
  | [m] => inferInstanceAs (Decidable (m.sys_to = none))
  | _ :: s :: rest =>
    have : Decidable (MetaChained (s :: rest)) := instMetaChainedDec (s :: rest)
    inferInstanceAs (Decidable (_ ∧ _))

theorem chainPassMeta_cons_of_eq {r : MetaRecord} {rest : List MetaRecord}
    (h : r.sys_to = headSysFrom rest) :
    chainPassMeta (r :: rest) = (r :: (chainPassMeta rest).1, (chainPassMeta rest).2) := by
  simp only [chainPassMeta]
  rw [if_pos h]

theorem metaChained_cons_cons {r s : MetaRecord} {rest : List MetaRecord} :
    MetaChained (r :: s :: rest) ↔ r.sys_to = some s.sys_from ∧ MetaChained (s :: rest) :=
  Iff.rfl

/-- The record states produced by the meta chaining pass. -/
def chainWindowsMeta : List MetaRecord → List MetaRecord
  | [] => []
  | r :: rest => { r with sys_to := headSysFrom rest } :: chainWindowsMeta rest

theorem chainPassMeta_fst : ∀ l : List MetaRecord, (chainPassMeta l).1 = chainWindowsMeta l
  | [] => rfl
  | r :: rest => by
    have ih := chainPassMeta_fst rest
    by_cases h : r.sys_to = headSysFrom rest
    · rw [chainPassMeta_cons_of_eq h]
      show r :: (chainPassMeta rest).1 = { r with sys_to := headSysFrom rest } :: chainWindowsMeta rest
      rw [← h, ih]
    · simp only [chainPassMeta]
      rw [if_neg h]
      show _ :: (chainPassMeta rest).1 = _ :: chainWindowsMeta rest
      rw [ih]

theorem chainWindowsMeta_metaChained : ∀ l : List MetaRecord, MetaChained (chainWindowsMeta l)
  | [] => trivial
  | [r] => rfl
  | r :: s :: t => by
    have ih := chainWindowsMeta_metaChained (s :: t)
    show MetaChained ({ r with sys_to := some s.sys_from } ::
      { s with sys_to := headSysFrom t } :: chainWindowsMeta t)
    rw [metaChained_cons_cons]
    exact ⟨rfl, ih⟩

theorem chainPassMeta_metaChained (l : List MetaRecord) : MetaChained (chainPassMeta l).1 := by
  rw [chainPassMeta_fst]; exact chainWindowsMeta_metaChained l

theorem metaChained_singleton {m : MetaRecord} (h : MetaChained [m]) : m.sys_to = none := h

/-! #### Stability of the meta sort

Within one sibling set every meta record carries the same copied business
pk (`entity_id`), so the source's `order_by("sys_from", "id")` ties on the
second key; the store lists meta records in `meta_history_id` order, so the
stable sort also yields the `(sys_from, meta_history_id)` order. -/

theorem metaLe_iff_of_eid {a b : MetaRecord} {e : Nat}
    (ha : a.entity_id = e) (hb : b.entity_id = e) :
    metaLe a b ↔ a.sys_from ≤ b.sys_from := by
  unfold metaLe pairLe mkeySrc
  rw [ha, hb]
  omega

theorem metaLexLe_of_le_of_lt {a b : MetaRecord}
    (h1 : a.sys_from ≤ b.sys_from) (h2 : a.meta_history_id < b.meta_history_id) :
    metaLexLe a b := by
  unfold metaLexLe pairLe mkeyLex
  omega

theorem metaLexLe_of_lt {a b : MetaRecord} (h : a.sys_from < b.sys_from) :
    metaLexLe a b := by
  unfold metaLexLe pairLe mkeyLex
  omega

theorem orderedInsert_metaLe_sorted_lex {e : Nat} {a : MetaRecord}
    (ha : a.entity_id = e) :
    ∀ {l : List MetaRecord}, (∀ b ∈ l, b.entity_id = e) →
      (∀ b ∈ l, a.meta_history_id < b.meta_history_id) →
      l.Pairwise metaLexLe →
      (l.orderedInsert metaLe a).Pairwise metaLexLe
  | [], _, _, _ => by simp
  | b :: t, he, hmid, hs => by
    by_cases h : metaLe a b
    · rw [List.orderedInsert_of_le metaLe t h]
      refine List.pairwise_cons.mpr ⟨?_, hs⟩
      intro x hx
      have hab : metaLexLe a b :=
        metaLexLe_of_le_of_lt
          ((metaLe_iff_of_eid ha (he b (List.mem_cons_self b t))).mp h)
          (hmid b (List.mem_cons_self b t))
      rcases List.mem_cons.mp hx with rfl | hx
      · exact hab
      · exact pairLe_trans hab ((List.pairwise_cons.mp hs).1 x hx)
    · show ((List.orderedInsert metaLe a (b :: t))).Pairwise metaLexLe
      rw [show List.orderedInsert metaLe a (b :: t)
          = b :: List.orderedInsert metaLe a t from if_neg h]
      refine List.pairwise_cons.mpr ⟨?_, ?_⟩
      · intro x hx
        rcases (List.mem_orderedInsert metaLe).mp hx with hxa | hx
        · have hb : b.entity_id = e := he b (List.mem_cons_self b t)
          have hnle : ¬ a.sys_from ≤ b.sys_from := fun hle =>
            h ((metaLe_iff_of_eid ha hb).mpr hle)
          rw [hxa]
          exact metaLexLe_of_lt (by omega)
        · exact (List.pairwise_cons.mp hs).1 x hx
      · exact orderedInsert_metaLe_sorted_lex ha
          (fun c hc => he c (List.mem_cons_of_mem b hc))
          (fun c hc => hmid c (List.mem_cons_of_mem b hc))
          (List.pairwise_cons.mp hs).2

theorem insertionSort_metaLe_sorted_lex {e : Nat} :
    ∀ {l : List MetaRecord}, (∀ b ∈ l, b.entity_id = e) →
      l.Pairwise (fun a b => a.meta_history_id < b.meta_history_id) →
      (List.insertionSort metaLe l).Pairwise metaLexLe
  | [], _, _ => List.Pairwise.nil
  | a :: t, he, hmid => by
    show (List.orderedInsert metaLe a (List.insertionSort metaLe t)).Pairwise metaLexLe
    refine orderedInsert_metaLe_sorted_lex (he a (List.mem_cons_self a t)) ?_ ?_ ?_
    · intro b hb
      exact he b (List.mem_cons_of_mem a ((List.mem_insertionSort metaLe).mp hb))
    · intro b hb
      exact (List.pairwise_cons.mp hmid).1 b ((List.mem_insertionSort metaLe).mp hb)
    · exact insertionSort_metaLe_sorted_lex
        (fun c hc => he c (List.mem_cons_of_mem a hc))
        (List.pairwise_cons.mp hmid).2

theorem chainWindowsMeta_map_mkeyLex : ∀ l : List MetaRecord,
    (chainWindowsMeta l).map mkeyLex = l.map mkeyLex
  | [] => rfl
  | r :: rest => by
    show mkeyLex { r with sys_to := headSysFrom rest } :: (chainWindowsMeta rest).map mkeyLex
      = mkeyLex r :: rest.map mkeyLex
    rw [chainWindowsMeta_map_mkeyLex rest]
    rfl

theorem chainPassMeta_map_mkeyLex (l : List MetaRecord) :
    (chainPassMeta l).1.map mkeyLex = l.map mkeyLex := by
  rw [chainPassMeta_fst]; exact chainWindowsMeta_map_mkeyLex l

theorem pairwise_of_map_mkeyLex {l₁ l₂ : List MetaRecord}
    (hmap : l₁.map mkeyLex = l₂.map mkeyLex) (h : l₂.Pairwise metaLexLe) :
    l₁.Pairwise metaLexLe := by
  have h2 : (l₂.map mkeyLex).Pairwise pairLe := List.pairwise_map.mpr h
  rw [← hmap] at h2
  have h3 := List.pairwise_map.mp h2
  exact h3

/-! ### Time-Travel Query Engine: get_queryset_as_of (valid-time branch) -/

/-- `valid_from <= t AND (valid_to > t OR valid_to IS NULL)`: the record's
half-open validity window contains `t`. -/
def coversB (r : HistoryRecord) (t : Nat) : Bool :=
  r.valid_from ≤ t &&
    (match r.valid_to with
      | none => true
      | some v => t < v)

/-- Model of the valid-time branch of `get_queryset_as_of`:
`filter(valid_from__lte=as_of).filter(Q(valid_to__gt=as_of) | Q(valid_to__isnull=True)).exclude(history_type="-")`. -/
def asOfValid (store : List HistoryRecord) (t : Nat) : List HistoryRecord :=
  store.filter (fun r => coversB r t && !(r.history_type == HType.deleted))

/-- The records `as_of_valid` returns for one entity key. -/
def asOfValidKey (store : List HistoryRecord) (pk t : Nat) : List HistoryRecord :=
  (asOfValid store t).filter (fun r => r.entity_key == pk)

theorem chained_tail {r : HistoryRecord} {rest : List HistoryRecord}
    (h : Chained (r :: rest)) : Chained rest := by
  cases rest with
  | nil => trivial
  | cons s t => exact h.2

/-- On a sorted, chained sibling list, at most one record covers any instant:
the windows are pairwise disjoint. -/
theorem covers_countP_le_one :
    ∀ {l : List HistoryRecord}, l.Pairwise histLe → Chained l → ∀ t : Nat,
      l.countP (fun r => coversB r t) ≤ 1
  | [], _, _, _ => by simp
  | r :: rest, hs, hc, t => by
    rw [List.countP_cons]
    by_cases h : coversB r t = true
    · have hrest : rest.countP (fun r => coversB r t) = 0 := by
        cases rest with
        | nil => rfl
        | cons s t' =>
          refine List.countP_eq_zero.mpr ?_
          intro x hx
          have hto : r.valid_to = some s.valid_from := hc.1
          have hcov := h
          unfold coversB at hcov
          rw [hto] at hcov
          simp only [Bool.and_eq_true, decide_eq_true_eq] at hcov
          have ht : t < s.valid_from := hcov.2
          have hsx : s.valid_from ≤ x.valid_from := by
            rcases List.mem_cons.mp hx with rfl | hx'
            · exact Nat.le_refl _
            · have hrel := (List.pairwise_cons.mp (List.pairwise_cons.mp hs).2).1 x hx'
              unfold histLe pairLe hkey at hrel
              omega
          unfold coversB
          simp only [Bool.and_eq_true, decide_eq_true_eq, not_and]
          intro hxf
          omega
      rw [hrest, h]
      simp
    · rw [if_neg h]
      simpa using covers_countP_le_one (List.pairwise_cons.mp hs).2 (chained_tail hc) t

/-- `as_of_valid` restricted to one entity equals the entity's sibling rows
filtered by the coverage-and-not-deleted predicate. -/
theorem asOfValidKey_comm (store : List HistoryRecord) (pk t : Nat) :
    asOfValidKey store pk t
      = (store.filter (fun r => r.entity_key == pk)).filter
          (fun r => coversB r t && !(r.history_type == HType.deleted)) := by
  unfold asOfValidKey asOfValid
  rw [List.filter_filter, List.filter_filter]
  exact List.filter_congr (fun a _ => Bool.and_comm _ _)

/-! ### Claim C2 -/

/-- **C2**: for every instant `T` and entity whose history records satisfy
the non-overlapping gapless chain invariant and include at least one
non-deleted record covering `T`, the valid-time query `as_of_valid` —
records with `valid_from <= T` and (`valid_to > T` or null), excluding
deletion markers — returns exactly one record for that entity. -/
theorem C2_exactly_one_effective
    (store : List HistoryRecord) (pk T : Nat)
    (hchain : Chained (siblingsOf store pk))
    (hex : ∃ r ∈ store, r.entity_key = pk ∧ coversB r T = true
      ∧ r.history_type ≠ HType.deleted) :
    (asOfValidKey store pk T).length = 1 := by
  have hsorted : (siblingsOf store pk).Pairwise histLe :=
    List.sorted_insertionSort histLe _
  have hcount := (List.perm_insertionSort histLe
    (store.filter (fun r => r.entity_key == pk))).countP_eq
    (fun r => coversB r T && !(r.history_type == HType.deleted))
  rw [asOfValidKey_comm, ← List.countP_eq_length_filter, ← hcount]
  refine Nat.le_antisymm ?_ ?_
  · calc (List.insertionSort histLe
          (store.filter (fun r => r.entity_key == pk))).countP
          (fun r => coversB r T && !(r.history_type == HType.deleted))
        ≤ (List.insertionSort histLe
            (store.filter (fun r => r.entity_key == pk))).countP
            (fun r => coversB r T) := by
          refine List.countP_mono_left ?_
          intro x _ hx
          exact (Bool.and_eq_true _ _ |>.mp hx).1
      _ ≤ 1 := covers_countP_le_one hsorted hchain T
  · obtain ⟨r, hmem, hkeyr, hcov, hnd⟩ := hex
    have hr : r ∈ List.insertionSort histLe
        (store.filter (fun r => r.entity_key == pk)) := by
      rw [List.mem_insertionSort]
      exact List.mem_filter.mpr ⟨hmem, by simpa using hkeyr⟩
    have hpos : 0 < (List.insertionSort histLe
        (store.filter (fun r => r.entity_key == pk))).countP
        (fun r => coversB r T && !(r.history_type == HType.deleted)) := by
      refine List.countP_pos_iff.mpr ⟨r, hr, ?_⟩
      rw [Bool.and_eq_true, hcov]
      refine ⟨rfl, ?_⟩
      simpa using hnd
    omega

/-! ### Current-Table Synchronizer: BitemporalSynchronizer.sync_record_for_model -/

/-- The reversed ordering used by `order_by("-valid_from", "-history_id")`. -/
def histGe (a b : HistoryRecord) : Prop := pairLe (hkey b) (hkey a)

instance : DecidableRel histGe := fun _ _ => by
  unfold histGe; infer_instance

instance : IsTotal HistoryRecord histGe := ⟨fun _ _ => (pairLe_total _ _).symm⟩

instance : IsTrans HistoryRecord histGe := ⟨fun _ _ _ h1 h2 => pairLe_trans h2 h1⟩

/-- The effective record of `sync_record_for_model`: history rows of the
entity whose window covers `now`, ordered `("-valid_from", "-history_id")`,
first one taken. -/
def effectiveRecord (hist : List HistoryRecord) (pk now : Nat) : Option HistoryRecord :=
  (List.insertionSort histGe
    ((hist.filter (fun r => r.entity_key == pk)).filter (fun r => coversB r now))).head?

/-- A main-table row: the flat CurrentProjection for one entity. -/
structure MainRow where
  pk : Nat
  fields : List Int
deriving DecidableEq

inductive WriteKind
  | upsert
  | del
deriving DecidableEq

/-- One main-table write performed by the synchronizer, with the
`skip_history_when_saving` flag it was stamped with. -/
structure MainWrite where
  kind : WriteKind
  pk : Nat
  skip_history_when_saving : Bool
deriving DecidableEq

/-- `model_class.objects.get(pk=pk_val)`, `None` for `DoesNotExist`. -/
def mainLookup (mains : List MainRow) (pk : Nat) : Option MainRow :=
  mains.find? (fun m => m.pk == pk)

/-- Saving a row into the single-row-keyed main table: replace the row
with this pk, or insert it. -/
def mainUpsert : List MainRow → Nat → List Int → List MainRow
  | [], pk, snap => [⟨pk, snap⟩]
  | m :: rest, pk, snap =>
    if m.pk = pk then ⟨pk, snap⟩ :: rest
    else m :: mainUpsert rest pk snap

/-- Deleting the main-table row for one pk. -/
def mainDelete (mains : List MainRow) (pk : Nat) : List MainRow :=
  mains.filter (fun m => !(m.pk == pk))

/-- The upsert arm of `sync_record_for_model`: diff the snapshot against
the existing row field by field, save (with `skip_history_when_saving`)
only when something changed or the row is new. -/
def syncUpsertStep (mains : List MainRow) (pk : Nat) (snap : List Int) :
    List MainRow × List MainWrite :=
  match mainLookup mains pk with
  | some row =>
    if row.fields = snap then (mains, [])
    else (mainUpsert mains pk snap, [⟨WriteKind.upsert, pk, true⟩])
  | none => (mainUpsert mains pk snap, [⟨WriteKind.upsert, pk, true⟩])

/-- The delete arm of `sync_record_for_model`: remove the stale row if it
exists (with `skip_history_when_saving`), else do nothing. -/
def syncDeleteStep (mains : List MainRow) (pk : Nat) : List MainRow × List MainWrite :=
  match mainLookup mains pk with
  | some _ => (mainDelete mains pk, [⟨WriteKind.del, pk, true⟩])
  | none => (mains, [])

/-- Model of `BitemporalSynchronizer.sync_record_for_model`: find the
history record valid right now; if it exists and is not a deletion marker,
upsert the main row from its snapshot, otherwise delete the main row. -/
def sync_record_for_model (hist : List HistoryRecord) (mains : List MainRow)
    (pk now : Nat) : List MainRow × List MainWrite :=
  match effectiveRecord hist pk now with
  | some er =>
    if er.history_type = HType.deleted then syncDeleteStep mains pk
    else syncUpsertStep mains pk er.snapshot
  | none => syncDeleteStep mains pk

theorem mainLookup_upsert : ∀ (mains : List MainRow) (pk : Nat) (snap : List Int),
    mainLookup (mainUpsert mains pk snap) pk = some ⟨pk, snap⟩
  | [], pk, snap => by simp [mainLookup, mainUpsert]
  | m :: rest, pk, snap => by
    unfold mainUpsert
    by_cases h : m.pk = pk
    · rw [if_pos h]
      simp [mainLookup]
    · rw [if_neg h]
      unfold mainLookup
      rw [List.find?_cons_of_neg _ (by simpa using h)]
      exact mainLookup_upsert rest pk snap

theorem mainLookup_delete (mains : List MainRow) (pk : Nat) :
    mainLookup (mainDelete mains pk) pk = none := by
  unfold mainLookup mainDelete
  rw [List.find?_eq_none]
  intro x hx
  have := (List.mem_filter.mp hx).2
  simpa using this

theorem syncDeleteStep_lookup (mains : List MainRow) (pk : Nat) :
    mainLookup (syncDeleteStep mains pk).1 pk = none := by
  unfold syncDeleteStep
  cases h : mainLookup mains pk with
  | none => exact h
  | some row => exact mainLookup_delete mains pk

theorem syncUpsertStep_lookup (mains : List MainRow) (pk : Nat) (snap : List Int) :
    (mainLookup (syncUpsertStep mains pk snap).1 pk).map (fun m => m.fields)
      = some snap := by
  unfold syncUpsertStep
  split
  · rename_i row hrow
    split
    · rename_i hf
      rw [hrow]
      simpa using hf
    · rw [mainLookup_upsert]
      rfl
  · rw [mainLookup_upsert]
    rfl

theorem sync_eq_of_eff_none {hist : List HistoryRecord} {mains : List MainRow}
    {pk now : Nat} (h : effectiveRecord hist pk now = none) :
    sync_record_for_model hist mains pk now = syncDeleteStep mains pk := by
  unfold sync_record_for_model
  rw [h]

theorem sync_eq_of_eff_some_del {hist : List HistoryRecord} {mains : List MainRow}
    {pk now : Nat} {er : HistoryRecord} (h : effectiveRecord hist pk now = some er)
    (hd : er.history_type = HType.deleted) :
    sync_record_for_model hist mains pk now = syncDeleteStep mains pk := by
  unfold sync_record_for_model
  rw [h]
  show (if er.history_type = HType.deleted then syncDeleteStep mains pk
    else syncUpsertStep mains pk er.snapshot) = syncDeleteStep mains pk
  rw [if_pos hd]

theorem sync_eq_of_eff_some_live {hist : List HistoryRecord} {mains : List MainRow}
    {pk now : Nat} {er : HistoryRecord} (h : effectiveRecord hist pk now = some er)
    (hd : ¬ er.history_type = HType.deleted) :
    sync_record_for_model hist mains pk now = syncUpsertStep mains pk er.snapshot := by
  unfold sync_record_for_model
  rw [h]
  show (if er.history_type = HType.deleted then syncDeleteStep mains pk
    else syncUpsertStep mains pk er.snapshot) = syncUpsertStep mains pk er.snapshot
  rw [if_neg hd]

/-! ### Sample records for concrete evaluations -/

def hA : HistoryRecord := ⟨1, 7, 10, none, HType.created, [0]⟩

def hB : HistoryRecord := ⟨2, 7, 20, none, HType.changed, [1]⟩

def hC : HistoryRecord := ⟨1, 7, 10, some 20, HType.created, [0]⟩

def hD : HistoryRecord := ⟨2, 7, 20, none, HType.changed, [1]⟩

def mA : MetaRecord := ⟨1, 5, 7, 100, none, HType.created, [0], none, TaskStatus.statusNone⟩

/-! ### Claim C1 -/

/-- **C1**: after the Chain Maintainer runs for a sibling set (all history
records of one entity key, or all meta records of one `history_ref`), the
siblings in ascending `(window_start, version_id)` order —
`(valid_from, history_id)` at Level 1, `(sys_from, meta_id)` at Level 2 —
satisfy `window_end[i] = window_start[i+1]` for every adjacent pair and
`window_end = null` for the last record; a lone sibling has
`window_end = null`.  (At Level 2 the source sorts by the constant copied
business pk as tiebreaker, so the hypotheses state that the sibling set
shares one `entity_id` and that the store lists it in `meta_history_id`
order, which is how the store assigns pks.) -/
theorem C1_chain_maintainer_closure
    (hstore : List HistoryRecord) (pk : Nat)
    (mstore : List MetaRecord) (hid e : Nat)
    (he : ∀ m ∈ mstore, m.history_object_id = hid → m.entity_id = e)
    (hmid : (mstore.filter (fun m => m.history_object_id == hid)).Pairwise
      (fun a b => a.meta_history_id < b.meta_history_id)) :
    ((chainValidTo hstore pk).1.Pairwise histLe
      ∧ Chained (chainValidTo hstore pk).1
      ∧ ∀ r, (chainValidTo hstore pk).1 = [r] → r.valid_to = none)
    ∧ ((chainSysTo mstore hid).1.Pairwise metaLexLe
      ∧ MetaChained (chainSysTo mstore hid).1
      ∧ ∀ m, (chainSysTo mstore hid).1 = [m] → m.sys_to = none) := by
  have hsortedLex : (metaSiblingsOf mstore hid).Pairwise metaLexLe := by
    refine insertionSort_metaLe_sorted_lex (e := e) ?_ hmid
    intro m hm
    exact he m (List.mem_filter.mp hm).1 (by simpa using (List.mem_filter.mp hm).2)
  refine ⟨⟨?_, ?_, ?_⟩, ?_, ?_, ?_⟩
  · exact chainPass_sorted (List.sorted_insertionSort histLe _)
  · exact chainPass_chained _
  · intro r hr
    have hc := chainPass_chained (siblingsOf hstore pk)
    rw [show (chainValidTo hstore pk).1 = (chainPass (siblingsOf hstore pk)).1 from rfl] at hr
    rw [hr] at hc
    exact chained_singleton hc
  · exact pairwise_of_map_mkeyLex (chainPassMeta_map_mkeyLex _) hsortedLex
  · exact chainPassMeta_metaChained _
  · intro m hm
    have hc := chainPassMeta_metaChained (metaSiblingsOf mstore hid)
    rw [show (chainSysTo mstore hid).1 = (chainPassMeta (metaSiblingsOf mstore hid)).1 from rfl] at hm
    rw [hm] at hc
    exact metaChained_singleton hc

/-- Witness for C1 at a concrete input. -/
theorem C1_chain_maintainer_closure_witness :
    (∀ m ∈ [mA], m.history_object_id = 5 → m.entity_id = 7)
    ∧ (([mA].filter (fun m => m.history_object_id == 5)).Pairwise
        (fun a b => a.meta_history_id < b.meta_history_id))
    ∧ (((chainValidTo [hA, hB] 7).1.Pairwise histLe
        ∧ Chained (chainValidTo [hA, hB] 7).1
        ∧ ∀ r, (chainValidTo [hA, hB] 7).1 = [r] → r.valid_to = none)
      ∧ ((chainSysTo [mA] 5).1.Pairwise metaLexLe
        ∧ MetaChained (chainSysTo [mA] 5).1
        ∧ ∀ m, (chainSysTo [mA] 5).1 = [m] → m.sys_to = none)) :=
  ⟨by decide, by decide,
    C1_chain_maintainer_closure [hA, hB] 7 [mA] 5 7 (by decide) (by decide)⟩

/-- Witness for C2 at a concrete input. -/
theorem C2_exactly_one_effective_witness :
    Chained (siblingsOf [hC, hD] 7)
    ∧ (∃ r ∈ [hC, hD], r.entity_key = 7 ∧ coversB r 15 = true
        ∧ r.history_type ≠ HType.deleted)
    ∧ (asOfValidKey [hC, hD] 7 15).length = 1 :=
  ⟨by decide, by decide,
    C2_exactly_one_effective [hC, hD] 7 15 (by decide) (by decide)⟩

/-! ### Claim C3 -/

theorem eligible_length_le_one (hist : List HistoryRecord) (pk now : Nat)
    (hchain : Chained (siblingsOf hist pk)) :
    ((hist.filter (fun r => r.entity_key == pk)).filter
      (fun r => coversB r now)).length ≤ 1 := by
  rw [← List.countP_eq_length_filter]
  have hcount := (List.perm_insertionSort histLe
    (hist.filter (fun r => r.entity_key == pk))).countP_eq (fun r => coversB r now)
  rw [← hcount]
  exact covers_countP_le_one (List.sorted_insertionSort histLe _) hchain now

theorem asOfValidKey_eq_eligible_filter (hist : List HistoryRecord) (pk t : Nat) :
    asOfValidKey hist pk t
      = ((hist.filter (fun r => r.entity_key == pk)).filter
          (fun r => coversB r t)).filter
          (fun r => !(r.history_type == HType.deleted)) := by
  rw [asOfValidKey_comm]
  simp only [List.filter_filter]
  exact List.filter_congr (fun a _ => by rw [Bool.and_assoc, Bool.and_left_comm])

/-- **C3**: `sync` selects the entity's history record effective now
(`valid_from <= now`, `valid_to > now` or null, ordered
`(valid_from desc, history_id desc)`, first); if it exists and is not a
deletion marker the CurrentProjection row is upserted to its snapshot,
otherwise the row is deleted if present — so after the write settles,
`current(key)` equals the snapshot returned by `as_of_valid(key, now)`
or is absent. -/
theorem C3_sync_equivalence
    (hist : List HistoryRecord) (mains : List MainRow) (pk now : Nat)
    (hchain : Chained (siblingsOf hist pk)) :
    (mainLookup (sync_record_for_model hist mains pk now).1 pk).map (fun m => m.fields)
      = (asOfValidKey hist pk now).head?.map (fun r => r.snapshot) := by
  have hlen := eligible_length_le_one hist pk now hchain
  rw [asOfValidKey_eq_eligible_filter]
  cases hel : (hist.filter (fun r => r.entity_key == pk)).filter (fun r => coversB r now) with
  | nil =>
    have heff : effectiveRecord hist pk now = none := by
      unfold effectiveRecord
      rw [hel]
      rfl
    rw [sync_eq_of_eff_none heff, syncDeleteStep_lookup]
    rfl
  | cons x xs =>
    have hxs : xs = [] := by
      rw [hel] at hlen
      simp only [List.length_cons] at hlen
      exact List.length_eq_zero.mp (by omega)
    subst hxs
    have heff : effectiveRecord hist pk now = some x := by
      unfold effectiveRecord
      rw [hel]
      rfl
    by_cases hdel : x.history_type = HType.deleted
    · rw [sync_eq_of_eff_some_del heff hdel, syncDeleteStep_lookup]
      have hd : (x.history_type == HType.deleted) = true := by simpa using hdel
      simp [List.filter, hd]
    · rw [sync_eq_of_eff_some_live heff hdel, syncUpsertStep_lookup]
      have hnd : (x.history_type == HType.deleted) = false := by simpa using hdel
      simp [List.filter, hnd]

/-- Witness for C3 at a concrete input. -/
theorem C3_sync_equivalence_witness :
    Chained (siblingsOf [hC, hD] 7)
    ∧ (mainLookup (sync_record_for_model [hC, hD] [] 7 25).1 7).map (fun m => m.fields)
      = (asOfValidKey [hC, hD] 7 25).head?.map (fun r => r.snapshot) :=
  ⟨by decide, C3_sync_equivalence [hC, hD] [] 7 25 (by decide)⟩

/-! ### Level-2 writer: MetaLevelHistoricalRecords.create_historical_record -/

/-- The reversed ordering used by `order_by("-sys_from", "-meta_history_id")`. -/
def metaGeLex (a b : MetaRecord) : Prop := pairLe (mkeyLex b) (mkeyLex a)

instance : DecidableRel metaGeLex := fun _ _ => by
  unfold metaGeLex; infer_instance

instance : IsTotal MetaRecord metaGeLex := ⟨fun _ _ => pairLe_total _ _⟩

instance : IsTrans MetaRecord metaGeLex := ⟨fun _ _ _ h1 h2 => pairLe_trans h2 h1⟩

/-- `manager.all().order_by("-sys_from", "-meta_history_id").first()`:
the latest meta record of one history row. -/
def latestMeta (metas : List MetaRecord) : Option MetaRecord :=
  (List.insertionSort metaGeLex metas).head?

/-- Saving a modified meta row back into its sibling list (row-keyed by
`meta_history_id`). -/
def updateMeta (metas : List MetaRecord) (m : MetaRecord) : List MetaRecord :=
  metas.map (fun x => if x.meta_history_id = m.meta_history_id then m else x)

/-- A freshly created meta row: `sys_from` is the instance's
`_history_date` when present, else `now`; `sys_to`, `meta_task_name` and
`meta_task_status` take their field defaults; the data fields are copied
from the history row. -/
def newMetaFrom (h : HistoryRecord) (htype : HType) (histDate : Option Nat)
    (now newId : Nat) : MetaRecord :=
  ⟨newId, h.history_id, h.entity_key, histDate.getD now, none, htype,
    h.snapshot, none, TaskStatus.statusNone⟩

/-- Model of `MetaLevelHistoricalRecords.create_historical_record` on the
meta sibling list of one history row: when the triggering save carries
`_strict_chaining_update` and the latest meta record is open
(`sys_to IS NULL`), copy the data fields onto it in place (leaving
`sys_from` untouched); in every other case append a fresh meta row.
Returns the new sibling list and the record returned by the method. -/
def create_historical_record (metas : List MetaRecord) (h : HistoryRecord)
    (flag : Bool) (htype : HType) (histDate : Option Nat) (now newId : Nat) :
    List MetaRecord × MetaRecord :=
  if flag = true then
    match latestMeta metas with
    | some latest =>
      if latest.sys_to = none then
        (updateMeta metas { latest with entity_id := h.entity_key, snapshot := h.snapshot },
          { latest with entity_id := h.entity_key, snapshot := h.snapshot })
      else
        (metas ++ [newMetaFrom h htype histDate now newId],
          newMetaFrom h htype histDate now newId)
    | none =>
      (metas ++ [newMetaFrom h htype histDate now newId],
        newMetaFrom h htype histDate now newId)
  else
    (metas ++ [newMetaFrom h htype histDate now newId],
      newMetaFrom h htype histDate now newId)

theorem chainPass_refinement_eq : ∀ l : List HistoryRecord, ∀ s ∈ (chainPass l).2,
    s.refinement = (s.oldTo.isSome && s.saved.valid_to.isSome)
  | [], s, hs => by simp [chainPass] at hs
  | r :: rest, s, hs => by
    by_cases h : r.valid_to = headValidFrom rest
    · rw [chainPass_cons_of_eq h] at hs
      exact chainPass_refinement_eq rest s hs
    · rw [chainPass_cons_of_ne h] at hs
      rcases List.mem_cons.mp hs with rfl | hs'
      · rfl
      · exact chainPass_refinement_eq rest s hs'

theorem create_in_place {metas : List MetaRecord} {latest : MetaRecord}
    (hl : latestMeta metas = some latest) (hopen : latest.sys_to = none)
    (h : HistoryRecord) (htype : HType) (histDate : Option Nat) (now newId : Nat) :
    create_historical_record metas h true htype histDate now newId
      = (updateMeta metas { latest with entity_id := h.entity_key, snapshot := h.snapshot },
        { latest with entity_id := h.entity_key, snapshot := h.snapshot }) := by
  unfold create_historical_record
  rw [if_pos rfl, hl]
  show (if latest.sys_to = none then _ else _) = _
  rw [if_pos hopen]

theorem create_append {metas : List MetaRecord} {flag : Bool}
    (hother : flag = true → ∀ latest, latestMeta metas = some latest → latest.sys_to ≠ none)
    (h : HistoryRecord) (htype : HType) (histDate : Option Nat) (now newId : Nat) :
    create_historical_record metas h flag htype histDate now newId
      = (metas ++ [newMetaFrom h htype histDate now newId],
        newMetaFrom h htype histDate now newId) := by
  unfold create_historical_record
  by_cases hf : flag = true
  · rw [if_pos hf]
    cases hl : latestMeta metas with
    | none => rfl
    | some latest =>
      show (if latest.sys_to = none then _ else _) = _
      rw [if_neg (hother hf latest hl)]
  · rw [if_neg hf]

/-! ### Claim C4 -/

/-- **C4**: a rechain that replaces one non-null `window_end` with another
non-null value flags the save as a refinement; when the Level-2 writer is
invoked with that flag and the latest meta record for the history row is
open (`sys_to` null), it updates that record's data fields in place
leaving `sys_from` unchanged (and adding no row); in every other case it
appends a fresh MetaRecord with `sys_from = now`. -/
theorem C4_refinement_fast_path :
    (∀ l : List HistoryRecord, ∀ s ∈ (chainPass l).2,
      s.oldTo.isSome = true → (s.saved.valid_to).isSome = true → s.refinement = true)
    ∧ (∀ (metas : List MetaRecord) (h : HistoryRecord) (htype : HType)
        (now newId : Nat) (latest : MetaRecord),
        latestMeta metas = some latest → latest.sys_to = none →
        create_historical_record metas h true htype none now newId
          = (updateMeta metas { latest with entity_id := h.entity_key, snapshot := h.snapshot },
            { latest with entity_id := h.entity_key, snapshot := h.snapshot })
        ∧ ({ latest with entity_id := h.entity_key, snapshot := h.snapshot } : MetaRecord).sys_from
            = latest.sys_from
        ∧ (updateMeta metas { latest with entity_id := h.entity_key, snapshot := h.snapshot }).length
            = metas.length)
    ∧ (∀ (metas : List MetaRecord) (h : HistoryRecord) (flag : Bool) (htype : HType)
        (now newId : Nat),
        (flag = true → ∀ latest, latestMeta metas = some latest → latest.sys_to ≠ none) →
        create_historical_record metas h flag htype none now newId
          = (metas ++ [newMetaFrom h htype none now newId], newMetaFrom h htype none now newId)
        ∧ (newMetaFrom h htype none now newId).sys_from = now) := by
  refine ⟨?_, ?_, ?_⟩
  · intro l s hs ho hn
    rw [chainPass_refinement_eq l s hs, ho, hn]
    rfl
  · intro metas h htype now newId latest hl hopen
    exact ⟨create_in_place hl hopen h htype none now newId, rfl, List.length_map _ _⟩
  · intro metas h flag htype now newId hother
    exact ⟨create_append hother h htype none now newId, rfl⟩

def hE : HistoryRecord := ⟨1, 7, 10, some 99, HType.created, [0]⟩

def mOpen : MetaRecord := ⟨3, 1, 7, 40, none, HType.created, [5], none, TaskStatus.statusNone⟩

def mClosed : MetaRecord := ⟨2, 1, 7, 30, some 40, HType.created, [4], none, TaskStatus.statusNone⟩

/-- Witness for C4 at concrete inputs: a non-null-to-non-null rechain is
flagged, the flagged write updates the open meta row in place, and an
unflagged write appends with `sys_from = now`. -/
theorem C4_refinement_fast_path_witness :
    ((chainPass [hE, hD]).2.head?.all (fun s => s.oldTo.isSome && s.saved.valid_to.isSome))
    ∧ (latestMeta [mClosed, mOpen] = some mOpen ∧ mOpen.sys_to = none
      ∧ (create_historical_record [mClosed, mOpen] hD true HType.changed none 50 9
          = (updateMeta [mClosed, mOpen]
              { mOpen with entity_id := hD.entity_key, snapshot := hD.snapshot },
            { mOpen with entity_id := hD.entity_key, snapshot := hD.snapshot })
        ∧ ({ mOpen with entity_id := hD.entity_key, snapshot := hD.snapshot } : MetaRecord).sys_from
            = mOpen.sys_from
        ∧ (updateMeta [mClosed, mOpen]
            { mOpen with entity_id := hD.entity_key, snapshot := hD.snapshot }).length
            = ([mClosed, mOpen] : List MetaRecord).length))
    ∧ (create_historical_record [mClosed, mOpen] hD false HType.changed none 50 9
        = ([mClosed, mOpen] ++ [newMetaFrom hD HType.changed none 50 9],
          newMetaFrom hD HType.changed none 50 9)
      ∧ (newMetaFrom hD HType.changed none 50 9).sys_from = 50) :=
  ⟨by decide, ⟨by decide, by decide,
    C4_refinement_fast_path.2.1 [mClosed, mOpen] hD HType.changed 50 9 mOpen
      (by decide) (by decide)⟩,
    C4_refinement_fast_path.2.2 [mClosed, mOpen] hD false HType.changed 50 9
      (fun hf => absurd hf (by decide))⟩

/-! ### Claim C9 -/

/-- **C9**: the Chain Maintainer is idempotent — on a sibling set already
satisfying the chain invariant it persists zero records, and re-running it
on its own output performs no saves; hence repeating the same `valid_to`
correction triggers no second MetaRecord write, and the single refinement
write it does trigger adds no meta row (one update, not two). -/
theorem C9_rechain_idempotent :
    (∀ l : List HistoryRecord, Chained l → (chainPass l).2 = [])
    ∧ (∀ (store : List HistoryRecord) (pk : Nat),
        chainPass (chainValidTo store pk).1 = ((chainValidTo store pk).1, []))
    ∧ (∀ (metas : List MetaRecord) (h : HistoryRecord) (htype : HType)
        (now newId : Nat) (latest : MetaRecord),
        latestMeta metas = some latest → latest.sys_to = none →
        ((create_historical_record metas h true htype none now newId).1).length
          = metas.length) := by
  refine ⟨?_, ?_, ?_⟩
  · intro l hc
    rw [chainPass_of_chained l hc]
  · intro store pk
    exact chainPass_idem _
  · intro metas h htype now newId latest hl hopen
    rw [create_in_place hl hopen]
    exact List.length_map _ _

/-- Witness for C9 at concrete inputs. -/
theorem C9_rechain_idempotent_witness :
    Chained [hC, hD]
    ∧ (chainPass [hC, hD]).2 = []
    ∧ chainPass (chainValidTo [hA, hB] 7).1 = ((chainValidTo [hA, hB] 7).1, [])
    ∧ (latestMeta [mOpen] = some mOpen ∧ mOpen.sys_to = none
      ∧ ((create_historical_record [mOpen] hD true HType.changed none 50 9).1).length
          = ([mOpen] : List MetaRecord).length) :=
  ⟨by decide, C9_rechain_idempotent.1 [hC, hD] (by decide),
    C9_rechain_idempotent.2.1 [hA, hB] 7,
    by decide, by decide,
    C9_rechain_idempotent.2.2 [mOpen] hD HType.changed 50 9 mOpen (by decide) (by decide)⟩

/-! ### Deletion-Chain Repairer: on_history_post_delete__repair_chain -/

/-- Ordering of `order_by("-valid_from")` (no tiebreaker in the source). -/
def vfGe (a b : HistoryRecord) : Prop := b.valid_from ≤ a.valid_from

instance : DecidableRel vfGe := fun _ _ => by
  unfold vfGe; infer_instance

instance : IsTotal HistoryRecord vfGe := ⟨fun _ _ => Nat.le_total _ _ |>.symm⟩

instance : IsTrans HistoryRecord vfGe := ⟨fun _ _ _ h1 h2 => Nat.le_trans h2 h1⟩

/-- Ordering of `order_by("valid_from")`. -/
def vfLe (a b : HistoryRecord) : Prop := a.valid_from ≤ b.valid_from

instance : DecidableRel vfLe := fun _ _ => by
  unfold vfLe; infer_instance

instance : IsTotal HistoryRecord vfLe := ⟨fun _ _ => Nat.le_total _ _⟩

instance : IsTrans HistoryRecord vfLe := ⟨fun _ _ _ h1 h2 => Nat.le_trans h1 h2⟩

/-- `filter(pk, valid_from__lt=removed.valid_from).order_by("-valid_from").first()`. -/
def prevRecord (store : List HistoryRecord) (pk vf : Nat) : Option HistoryRecord :=
  (List.insertionSort vfGe
    (store.filter (fun r => r.entity_key == pk && decide (r.valid_from < vf)))).head?

/-- `filter(pk, valid_from__gt=removed.valid_from).order_by("valid_from").first()`. -/
def nextRecord (store : List HistoryRecord) (pk vf : Nat) : Option HistoryRecord :=
  (List.insertionSort vfLe
    (store.filter (fun r => r.entity_key == pk && decide (vf < r.valid_from)))).head?

/-- Saving a modified history row back into the store (row-keyed by
`history_id`). -/
def updateHist (store : List HistoryRecord) (r : HistoryRecord) : List HistoryRecord :=
  store.map (fun x => if x.history_id = r.history_id then r else x)

/-- Model of `on_history_post_delete__repair_chain`: after a history row
is physically removed, extend the previous sibling's `valid_to` to the
next sibling's `valid_from` (or null when there is no next sibling). -/
def repair_chain (store : List HistoryRecord) (removed : HistoryRecord) : List HistoryRecord :=
  match prevRecord store removed.entity_key removed.valid_from with
  | some previous =>
    updateHist store { previous with
      valid_to := (nextRecord store removed.entity_key removed.valid_from).map
        (fun n => n.valid_from) }
  | none => store

/-- The head of an insertion sort is a member of the list and is related
to every member. -/
theorem head_insertionSort_rel {α : Type} {r : α → α → Prop} [DecidableRel r]
    [IsTotal α r] [IsTrans α r] {l : List α} {x : α}
    (h : (List.insertionSort r l).head? = some x) :
    x ∈ l ∧ ∀ q ∈ l, x = q ∨ r x q := by
  cases hs : List.insertionSort r l with
  | nil => rw [hs] at h; cases h
  | cons a rest =>
    rw [hs] at h
    have hax : a = x := Option.some.inj h
    subst hax
    have hsorted := List.sorted_insertionSort r l
    rw [hs] at hsorted
    constructor
    · have : a ∈ List.insertionSort r l := by
        rw [hs]; exact List.mem_cons_self a rest
      exact (List.mem_insertionSort r).mp this
    · intro q hq
      have hq2 : q ∈ List.insertionSort r l := (List.mem_insertionSort r).mpr hq
      rw [hs] at hq2
      rcases List.mem_cons.mp hq2 with rfl | hq3
      · exact Or.inl rfl
      · exact Or.inr ((List.pairwise_cons.mp hsorted).1 q hq3)

theorem repair_chain_of_prev {store : List HistoryRecord} {removed p : HistoryRecord}
    (h : prevRecord store removed.entity_key removed.valid_from = some p) :
    repair_chain store removed
      = updateHist store { p with
          valid_to := (nextRecord store removed.entity_key removed.valid_from).map
            (fun n => n.valid_from) } := by
  unfold repair_chain
  rw [h]

theorem repair_chain_of_no_prev {store : List HistoryRecord} {removed : HistoryRecord}
    (h : prevRecord store removed.entity_key removed.valid_from = none) :
    repair_chain store removed = store := by
  unfold repair_chain
  rw [h]

def hA3 : HistoryRecord := ⟨1, 7, 10, some 20, HType.created, [0]⟩

def hB3 : HistoryRecord := ⟨2, 7, 20, some 30, HType.changed, [1]⟩

def hC3 : HistoryRecord := ⟨3, 7, 30, none, HType.changed, [2]⟩

/-! ### Claim C5 -/

/-- **C5**: after a history row is physically removed, the repairer sets
the `valid_to` of the sibling with the largest `valid_from` strictly below
the removed row's `valid_from` to the `valid_from` of the sibling with the
smallest `valid_from` strictly above it (null when none); with no such
predecessor it changes nothing.  In particular, removing `B` from the
chain `A:[10,20) B:[20,30) C:[30,null)` leaves `A.valid_to = 30` with `B`
absent. -/
theorem C5_deletion_repair :
    (∀ (store : List HistoryRecord) (removed p : HistoryRecord),
      prevRecord store removed.entity_key removed.valid_from = some p →
      p ∈ store ∧ p.entity_key = removed.entity_key
        ∧ p.valid_from < removed.valid_from
        ∧ (∀ q ∈ store, q.entity_key = removed.entity_key →
            q.valid_from < removed.valid_from → q.valid_from ≤ p.valid_from)
        ∧ repair_chain store removed
            = updateHist store { p with
                valid_to := (nextRecord store removed.entity_key removed.valid_from).map
                  (fun n => n.valid_from) })
    ∧ (∀ (store : List HistoryRecord) (removed n : HistoryRecord),
      nextRecord store removed.entity_key removed.valid_from = some n →
      n ∈ store ∧ n.entity_key = removed.entity_key
        ∧ removed.valid_from < n.valid_from
        ∧ ∀ q ∈ store, q.entity_key = removed.entity_key →
            removed.valid_from < q.valid_from → n.valid_from ≤ q.valid_from)
    ∧ (∀ (store : List HistoryRecord) (removed : HistoryRecord),
      prevRecord store removed.entity_key removed.valid_from = none →
      repair_chain store removed = store)
    ∧ (repair_chain [hA3, hC3] hB3 = [{ hA3 with valid_to := some 30 }, hC3]
      ∧ ∀ x ∈ repair_chain [hA3, hC3] hB3, x.history_id ≠ hB3.history_id) := by
  refine ⟨?_, ?_, ?_, by decide⟩
  · intro store removed p h
    obtain ⟨hmem, hall⟩ := head_insertionSort_rel h
    have hmf := List.mem_filter.mp hmem
    have hp1 : p.entity_key = removed.entity_key := by
      have := hmf.2
      simp only [Bool.and_eq_true, beq_iff_eq, decide_eq_true_eq] at this
      exact this.1
    have hp2 : p.valid_from < removed.valid_from := by
      have := hmf.2
      simp only [Bool.and_eq_true, beq_iff_eq, decide_eq_true_eq] at this
      exact this.2
    refine ⟨hmf.1, hp1, hp2, ?_, repair_chain_of_prev h⟩
    intro q hq hq1 hq2
    have hqf : q ∈ store.filter
        (fun r => r.entity_key == removed.entity_key
          && decide (r.valid_from < removed.valid_from)) := by
      refine List.mem_filter.mpr ⟨hq, ?_⟩
      simp only [Bool.and_eq_true, beq_iff_eq, decide_eq_true_eq]
      exact ⟨hq1, hq2⟩
    rcases hall q hqf with rfl | hr
    · exact Nat.le_refl _
    · exact hr
  · intro store removed n h
    obtain ⟨hmem, hall⟩ := head_insertionSort_rel h
    have hmf := List.mem_filter.mp hmem
    have hn1 : n.entity_key = removed.entity_key := by
      have := hmf.2
      simp only [Bool.and_eq_true, beq_iff_eq, decide_eq_true_eq] at this
      exact this.1
    have hn2 : removed.valid_from < n.valid_from := by
      have := hmf.2
      simp only [Bool.and_eq_true, beq_iff_eq, decide_eq_true_eq] at this
      exact this.2
    refine ⟨hmf.1, hn1, hn2, ?_⟩
    intro q hq hq1 hq2
    have hqf : q ∈ store.filter
        (fun r => r.entity_key == removed.entity_key
          && decide (removed.valid_from < r.valid_from)) := by
      refine List.mem_filter.mpr ⟨hq, ?_⟩
      simp only [Bool.and_eq_true, beq_iff_eq, decide_eq_true_eq]
      exact ⟨hq1, hq2⟩
    rcases hall q hqf with rfl | hr
    · exact Nat.le_refl _
    · exact hr
  · intro store removed h
    exact repair_chain_of_no_prev h

/-- Witness for C5 at a concrete input: removing the middle record of the
3-record chain. -/
theorem C5_deletion_repair_witness :
    prevRecord [hA3, hC3] hB3.entity_key hB3.valid_from = some hA3
    ∧ (hA3 ∈ [hA3, hC3] ∧ hA3.entity_key = hB3.entity_key
        ∧ hA3.valid_from < hB3.valid_from
        ∧ (∀ q ∈ [hA3, hC3], q.entity_key = hB3.entity_key →
            q.valid_from < hB3.valid_from → q.valid_from ≤ hA3.valid_from)
        ∧ repair_chain [hA3, hC3] hB3
            = updateHist [hA3, hC3] { hA3 with
                valid_to := (nextRecord [hA3, hC3] hB3.entity_key hB3.valid_from).map
                  (fun n => n.valid_from) }) :=
  ⟨by decide, C5_deletion_repair.1 [hA3, hC3] hB3 hA3 (by decide)⟩

/-! ### Activation Scheduler: on_history_saved__create_meta,
_schedule_future_activation, on_history_pre_delete__cancel_schedules -/

/-- A `django_celery_beat` `PeriodicTask` row as used by the handlers:
its unique name, the clocked time it fires at, and the history id in its
args. -/
structure PeriodicTask where
  name : String
  clocked_time : Nat
  history_id : Nat
deriving DecidableEq

/-- The local-backend task name
`f"local_thread_{history_instance.pk}_{int(now.timestamp())}"`. -/
def localTaskName (pk ts : Nat) : String :=
  "local_thread_" ++ toString pk ++ "_" ++ toString ts

/-- The Celery task name
`f"activate_{app_label}_{model_name}_{pk}_{timestamp}_{uuid4}"`. -/
def celeryTaskName (appLabel modelName : String) (pk ts : Nat) (uuid : String) : String :=
  "activate_" ++ appLabel ++ "_" ++ modelName ++ "_" ++ toString pk ++ "_"
    ++ toString ts ++ "_" ++ uuid

/-- The grace-window test of `on_history_saved__create_meta`:
`history_instance.valid_from > now + timedelta(seconds=5)` (times in
seconds). Scheduling is deferred exactly when this holds. -/
def scheduleDecision (validFrom now : Nat) : Bool := decide (now + 5 < validFrom)

/-- `MetaModel.objects.filter(history_object=h).order_by("-sys_from", "-meta_history_id").first()`. -/
def latestMetaOf (metas : List MetaRecord) (hid : Nat) : Option MetaRecord :=
  latestMeta (metas.filter (fun m => m.history_object_id == hid))

/-- Model of the Celery branch of `_schedule_future_activation`: drop any
`PeriodicTask` carrying the meta record's old task name, create a new
one-off task clocked at `valid_from` under a fresh unique name, and stamp
the meta record `SCHEDULED` with that name. -/
def schedule_future_activation (metas : List MetaRecord) (tasks : List PeriodicTask)
    (meta : MetaRecord) (h : HistoryRecord) (appLabel modelName uuid : String)
    (now : Nat) : List MetaRecord × List PeriodicTask :=
  (updateMeta metas { meta with
      meta_task_name := some (celeryTaskName appLabel modelName h.history_id now uuid),
      meta_task_status := TaskStatus.scheduled },
    (match meta.meta_task_name with
      | some oldName => tasks.filter (fun t => !(t.name == oldName))
      | none => tasks)
      ++ [⟨celeryTaskName appLabel modelName h.history_id now uuid, h.valid_from,
            h.history_id⟩])

/-- Model of `on_history_saved__create_meta` (with the Celery scheduler
active): fetch the latest meta record of the saved history row, creating
the initial one when none exists, then schedule a future activation iff
`valid_from` lies beyond the 5-second grace window. -/
def on_history_saved_create_meta (metas : List MetaRecord) (tasks : List PeriodicTask)
    (h : HistoryRecord) (histDate : Option Nat) (now newId : Nat)
    (appLabel modelName uuid : String) : List MetaRecord × List PeriodicTask :=
  match latestMetaOf metas h.history_id with
  | some m =>
    if scheduleDecision h.valid_from now then
      schedule_future_activation metas tasks m h appLabel modelName uuid now
    else (metas, tasks)
  | none =>
    if scheduleDecision h.valid_from now then
      schedule_future_activation (metas ++ [newMetaFrom h HType.created histDate now newId])
        tasks (newMetaFrom h HType.created histDate now newId) h appLabel modelName uuid now
    else (metas ++ [newMetaFrom h HType.created histDate now newId], tasks)

/-- Model of `on_history_pre_delete__cancel_schedules`: for every meta
record of the row being deleted whose status is `SCHEDULED`, delete the
backend `PeriodicTask` carrying its task name and mark it `CANCELLED`. -/
def on_history_pre_delete_cancel_schedules (metas : List MetaRecord)
    (tasks : List PeriodicTask) (hid : Nat) : List MetaRecord × List PeriodicTask :=
  (metas.map (fun m =>
      if m.history_object_id == hid && m.meta_task_status == TaskStatus.scheduled
      then { m with meta_task_status := TaskStatus.cancelled } else m),
    tasks.filter (fun t =>
      !(metas.any (fun m => m.history_object_id == hid
          && m.meta_task_status == TaskStatus.scheduled
          && m.meta_task_name == some t.name))))

theorem create_meta_eq_some {metas : List MetaRecord} {tasks : List PeriodicTask}
    {h : HistoryRecord} {histDate : Option Nat} {now newId : Nat}
    {appLabel modelName uuid : String} {m : MetaRecord}
    (hl : latestMetaOf metas h.history_id = some m) :
    on_history_saved_create_meta metas tasks h histDate now newId appLabel modelName uuid
      = if scheduleDecision h.valid_from now then
          schedule_future_activation metas tasks m h appLabel modelName uuid now
        else (metas, tasks) := by
  unfold on_history_saved_create_meta
  rw [hl]

theorem create_meta_eq_none {metas : List MetaRecord} {tasks : List PeriodicTask}
    {h : HistoryRecord} {histDate : Option Nat} {now newId : Nat}
    {appLabel modelName uuid : String}
    (hl : latestMetaOf metas h.history_id = none) :
    on_history_saved_create_meta metas tasks h histDate now newId appLabel modelName uuid
      = if scheduleDecision h.valid_from now then
          schedule_future_activation (metas ++ [newMetaFrom h HType.created histDate now newId])
            tasks (newMetaFrom h HType.created histDate now newId) h appLabel modelName uuid now
        else (metas ++ [newMetaFrom h HType.created histDate now newId], tasks) := by
  unfold on_history_saved_create_meta
  rw [hl]

theorem updated_mem_updateMeta {l : List MetaRecord} {m u : MetaRecord}
    (hm : m ∈ l) (hid : m.meta_history_id = u.meta_history_id) :
    u ∈ updateMeta l u := by
  unfold updateMeta
  refine List.mem_map.mpr ⟨m, hm, ?_⟩
  rw [if_pos hid]

theorem mem_updateMeta {l : List MetaRecord} {u x : MetaRecord}
    (hx : x ∈ updateMeta l u) : x = u ∨ x ∈ l := by
  obtain ⟨m, hm, hfx⟩ := List.mem_map.mp hx
  by_cases h : m.meta_history_id = u.meta_history_id
  · rw [if_pos h] at hfx
    exact Or.inl hfx.symm
  · rw [if_neg h] at hfx
    exact Or.inr (hfx ▸ hm)

def hSup : HistoryRecord := ⟨3, 7, 200, some 200, HType.changed, [2]⟩

def mSched : MetaRecord := ⟨4, 3, 7, 90, none, HType.created, [2], some "t1", TaskStatus.scheduled⟩

/-! ### Claim C6 -/

/-- **C6 counterexample**: a pending scheduled activation whose history
record has been superseded (window closed to empty by a newer write) is
*not* cancelled when the save-side handler runs: its meta record keeps
`task_status = SCHEDULED` (the handler even re-arms it), contradicting
the claim that supersession sets `task_status = Cancelled`. -/
theorem C6_supersede_counterexample :
    ((on_history_saved_create_meta [mSched] [] hSup none 100 9 "a" "m" "u").1.head?).map
        (fun m => m.meta_task_status) = some TaskStatus.scheduled
    ∧ ¬ (∀ m ∈ (on_history_saved_create_meta [mSched] [] hSup none 100 9 "a" "m" "u").1,
        m.history_object_id = 3 → m.meta_task_status = TaskStatus.cancelled) := by
  decide

/-- **C6 (amended)**: cancellation happens on deletion only: the
pre-delete handler marks every scheduled meta record of the deleted row
`CANCELLED` and removes the backend tasks carrying their names.  A write
superseding a scheduled record never sets `CANCELLED` (the save-side
handler leaves the status `SCHEDULED` or re-arms it), but the superseded
record is still never selected as the CurrentProjection at the instant it
would have fired, because synchronization only selects records whose
window covers that instant. -/
theorem C6_cancellation
    : (∀ (metas : List MetaRecord) (tasks : List PeriodicTask) (hid : Nat),
        (∀ m ∈ (on_history_pre_delete_cancel_schedules metas tasks hid).1,
          m.history_object_id = hid → m.meta_task_status ≠ TaskStatus.scheduled)
        ∧ (∀ t ∈ (on_history_pre_delete_cancel_schedules metas tasks hid).2,
            ∀ m ∈ metas, m.history_object_id = hid →
              m.meta_task_status = TaskStatus.scheduled →
              m.meta_task_name ≠ some t.name))
    ∧ (∀ (metas : List MetaRecord) (tasks : List PeriodicTask) (h : HistoryRecord)
        (histDate : Option Nat) (now newId : Nat) (appLabel modelName uuid : String),
        (∀ m ∈ metas, m.meta_task_status ≠ TaskStatus.cancelled) →
        ∀ m ∈ (on_history_saved_create_meta metas tasks h histDate now newId
            appLabel modelName uuid).1,
          m.meta_task_status ≠ TaskStatus.cancelled)
    ∧ (∀ (hist : List HistoryRecord) (pk t : Nat) (R : HistoryRecord),
        coversB R t = false → effectiveRecord hist pk t ≠ some R) := by
  refine ⟨?_, ?_, ?_⟩
  · intro metas tasks hid
    constructor
    · intro m hm hhid
      obtain ⟨m₀, hm₀, hfx⟩ := List.mem_map.mp hm
      by_cases hcond : (m₀.history_object_id == hid
          && m₀.meta_task_status == TaskStatus.scheduled) = true
      · rw [if_pos hcond] at hfx
        rw [← hfx]
        intro hcontra
        cases hcontra
      · rw [if_neg hcond] at hfx
        subst hfx
        simp only [Bool.and_eq_true, beq_iff_eq, not_and] at hcond
        intro hsched
        exact hcond hhid hsched
    · intro t ht m hm hhid hsched hname
      have hpred := (List.mem_filter.mp ht).2
      rw [Bool.not_eq_true', List.any_eq_false] at hpred
      refine hpred m hm ?_
      simp only [Bool.and_eq_true, beq_iff_eq]
      exact ⟨⟨hhid, hsched⟩, hname⟩
  · intro metas tasks h histDate now newId appLabel modelName uuid hnone m hm
    cases hl : latestMetaOf metas h.history_id with
    | some m₀ =>
      rw [create_meta_eq_some hl] at hm
      by_cases hdec : scheduleDecision h.valid_from now = true
      · rw [if_pos hdec] at hm
        unfold schedule_future_activation at hm
        rcases mem_updateMeta hm with rfl | hm'
        · intro hcontra
          cases hcontra
        · exact hnone m hm'
      · rw [if_neg hdec] at hm
        exact hnone m hm
    | none =>
      rw [create_meta_eq_none hl] at hm
      by_cases hdec : scheduleDecision h.valid_from now = true
      · rw [if_pos hdec] at hm
        unfold schedule_future_activation at hm
        rcases mem_updateMeta hm with rfl | hm'
        · intro hcontra
          cases hcontra
        · rcases List.mem_append.mp hm' with hm'' | hm''
          · exact hnone m hm''
          · rcases List.mem_cons.mp hm'' with rfl | hfalse
            · intro hcontra
              cases hcontra
            · cases hfalse
      · rw [if_neg hdec] at hm
        rcases List.mem_append.mp hm with hm'' | hm''
        · exact hnone m hm''
        · rcases List.mem_cons.mp hm'' with rfl | hfalse
          · intro hcontra
            cases hcontra
          · cases hfalse
  · intro hist pk t R hcov heff
    obtain ⟨hmem, _⟩ := head_insertionSort_rel heff
    have := (List.mem_filter.mp hmem).2
    rw [hcov] at this
    cases this

/-- Witness for C6 (amended) at concrete inputs. -/
theorem C6_cancellation_witness :
    (∀ m ∈ (on_history_pre_delete_cancel_schedules [mSched]
        [⟨"t1", 200, 3⟩] 3).1,
      m.history_object_id = 3 → m.meta_task_status ≠ TaskStatus.scheduled)
    ∧ (∀ m ∈ [mSched], m.meta_task_status ≠ TaskStatus.cancelled)
    ∧ (∀ m ∈ (on_history_saved_create_meta [mSched] [] hSup none 100 9 "a" "m" "u").1,
        m.meta_task_status ≠ TaskStatus.cancelled)
    ∧ coversB hSup 200 = false
    ∧ effectiveRecord [hSup] 7 200 ≠ some hSup :=
  ⟨(C6_cancellation.1 [mSched] [⟨"t1", 200, 3⟩] 3).1,
    by decide,
    C6_cancellation.2.1 [mSched] [] hSup none 100 9 "a" "m" "u" (by decide),
    by decide,
    C6_cancellation.2.2 [hSup] 7 200 hSup (by decide)⟩

/-! ### Claim C7 -/

def hG : HistoryRecord := ⟨4, 7, 103, none, HType.created, [3]⟩

/-- **C7 counterexample**: a write whose `valid_from` lies strictly inside
the 5-second grace window (here `valid_from = now + 3`) registers no
deferred trigger — but it is *not* activated immediately either: the
synchronous current-table sync at `now` leaves the projection absent,
because the record does not yet cover `now`.  This contradicts the claim
that such records are "executed immediately and synchronously". -/
theorem C7_grace_window_counterexample :
    scheduleDecision hG.valid_from 100 = false
    ∧ (on_history_saved_create_meta [] [] hG none 100 9 "a" "m" "u").2 = []
    ∧ mainLookup (sync_record_for_model [hG] [] 7 100).1 7 = none := by
  decide

/-- **C7 (amended)**: a deferred trigger is registered iff
`valid_from > now + 5s`; when registered, the trigger carries a task name
derived from the entity identity and timestamp, the backend task is
clocked at `valid_from`, and the owning meta record's `task_status`
becomes `Scheduled`.  When `valid_from` is within the grace window nothing
is deferred and no status is set; the record is handled by the synchronous
pipeline, which makes it current only once `valid_from <= now`. -/
theorem C7_grace_window
    : (∀ vf now : Nat, scheduleDecision vf now = true ↔ now + 5 < vf)
    ∧ (∀ (metas : List MetaRecord) (tasks : List PeriodicTask) (h : HistoryRecord)
        (histDate : Option Nat) (now newId : Nat) (appLabel modelName uuid : String)
        (m : MetaRecord),
        latestMetaOf metas h.history_id = some m →
        scheduleDecision h.valid_from now = true →
        on_history_saved_create_meta metas tasks h histDate now newId appLabel modelName uuid
          = schedule_future_activation metas tasks m h appLabel modelName uuid now
        ∧ ({ m with
              meta_task_name := some (celeryTaskName appLabel modelName h.history_id now uuid),
              meta_task_status := TaskStatus.scheduled } : MetaRecord)
            ∈ (schedule_future_activation metas tasks m h appLabel modelName uuid now).1
        ∧ (⟨celeryTaskName appLabel modelName h.history_id now uuid, h.valid_from,
              h.history_id⟩ : PeriodicTask)
            ∈ (schedule_future_activation metas tasks m h appLabel modelName uuid now).2)
    ∧ (∀ (metas : List MetaRecord) (tasks : List PeriodicTask) (h : HistoryRecord)
        (histDate : Option Nat) (now newId : Nat) (appLabel modelName uuid : String)
        (m : MetaRecord),
        latestMetaOf metas h.history_id = some m →
        scheduleDecision h.valid_from now = false →
        on_history_saved_create_meta metas tasks h histDate now newId appLabel modelName uuid
          = (metas, tasks))
    ∧ (∀ (r : HistoryRecord) (t : Nat), r.valid_to = none →
        (coversB r t = true ↔ r.valid_from ≤ t)) := by
  refine ⟨?_, ?_, ?_, ?_⟩
  · intro vf now
    unfold scheduleDecision
    exact decide_eq_true_iff
  · intro metas tasks h histDate now newId appLabel modelName uuid m hl hdec
    refine ⟨?_, ?_, ?_⟩
    · rw [create_meta_eq_some hl, if_pos hdec]
    · unfold latestMetaOf latestMeta at hl
      obtain ⟨hmem, _⟩ := head_insertionSort_rel hl
      have hm2 : m ∈ metas := (List.mem_filter.mp hmem).1
      exact updated_mem_updateMeta hm2 rfl
    · unfold schedule_future_activation
      exact List.mem_append_right _ (List.mem_cons_self _ _)
  · intro metas tasks h histDate now newId appLabel modelName uuid m hl hdec
    rw [create_meta_eq_some hl, if_neg (by rw [hdec]; exact Bool.false_ne_true)]
  · intro r t hopen
    unfold coversB
    rw [hopen]
    simp

/-- Witness for C7 (amended) at concrete inputs. -/
theorem C7_grace_window_witness :
    (scheduleDecision 200 100 = true ↔ 100 + 5 < 200)
    ∧ latestMetaOf [mSched] hSup.history_id = some mSched
    ∧ scheduleDecision hSup.valid_from 100 = true
    ∧ (on_history_saved_create_meta [mSched] [] hSup none 100 9 "a" "m" "u"
        = schedule_future_activation [mSched] [] mSched hSup "a" "m" "u" 100
      ∧ ({ mSched with
            meta_task_name := some (celeryTaskName "a" "m" hSup.history_id 100 "u"),
            meta_task_status := TaskStatus.scheduled } : MetaRecord)
          ∈ (schedule_future_activation [mSched] [] mSched hSup "a" "m" "u" 100).1
      ∧ (⟨celeryTaskName "a" "m" hSup.history_id 100 "u", hSup.valid_from,
            hSup.history_id⟩ : PeriodicTask)
          ∈ (schedule_future_activation [mSched] [] mSched hSup "a" "m" "u" 100).2) :=
  ⟨C7_grace_window.1 200 100, by decide, by decide,
    C7_grace_window.2.1 [mSched] [] hSup none 100 9 "a" "m" "u" mSched
      (by decide) (by decide)⟩

/-! ### Error propagation: handler try/except structure

Each handler body is modelled as an `Except` value; a handler either
re-raises its body's failure or swallows it, exactly as the source's
try/except blocks do.  Django's `Signal.send` (used by the registry) runs
receivers in connection order and lets an exception abort the chain and
propagate to the caller of `save()`. -/

/-- A handler whose whole body sits in `try: ... except Exception:`
(logging only): any failure is swallowed. -/
def catchAllHandler (body : Except String Unit) : Except String Unit :=
  match body with
  | Except.ok _ => Except.ok ()
  | Except.error _ => Except.ok ()

/-- A handler with no exception handling: its body's failure propagates. -/
def rawHandler (body : Except String Unit) : Except String Unit := body

/-- Run receivers in order; the first uncaught exception aborts the chain. -/
def runHandlers : List (Except String Unit) → Except String Unit
  | [] => Except.ok ()
  | h :: rest =>
    match h with
    | Except.ok _ => runHandlers rest
    | Except.error e => Except.error e

/-- The `post_save` receiver chain on the History model in its connection
order from `connect_bitemporal_signals`: `on_history_saved__create_meta`
(body wrapped in try/except — meta-history and scheduling failures are
logged and swallowed), `on_history_saved__chain_valid_to` (no exception
handling) and `on_history_saved__sync_main_table` (no exception
handling). -/
def historyPostSavePipeline (metaBody chainBody syncBody : Except String Unit) :
    Except String Unit :=
  runHandlers [catchAllHandler metaBody, rawHandler chainBody, rawHandler syncBody]

/-- The `pre_delete` receiver `on_history_pre_delete__cancel_schedules`
(body wrapped in `try: ... except Exception: pass`). -/
def preDeletePipeline (cancelBody : Except String Unit) : Except String Unit :=
  runHandlers [catchAllHandler cancelBody]

/-! ### Claim C8 -/

/-- **C8 counterexample**: a failure inside the current-table
synchronization handler *does* propagate to the caller of the write: its
body has no try/except, so the post-save pipeline re-raises it rather
than returning success, contradicting the claim that synchronization
failures never propagate as hard failures. -/
theorem C8_sync_failure_propagates :
    historyPostSavePipeline (Except.ok ()) (Except.ok ()) (Except.error "SyncFailure")
      = Except.error "SyncFailure"
    ∧ (Except.error "SyncFailure" : Except String Unit) ≠ Except.ok () :=
  ⟨rfl, fun h => Except.noConfusion h⟩

/-- **C8 (amended)**: meta-history creation, scheduling and
schedule-cancellation failures are swallowed by their handlers and never
propagate; rechaining and current-table synchronization failures, whose
handlers have no exception handling, do propagate to the caller of the
write.  No handler ever removes the durable HistoryRecord: the chain
maintainer preserves every `(valid_from, history_id)` key of the sibling
set, and the deletion repairer preserves every `history_id` of the
store. -/
theorem C8_failure_containment
    : (∀ body : Except String Unit, catchAllHandler body = Except.ok ())
    ∧ (∀ e : String, historyPostSavePipeline (Except.error e) (Except.ok ()) (Except.ok ())
        = Except.ok ())
    ∧ (∀ cancelBody : Except String Unit, preDeletePipeline cancelBody = Except.ok ())
    ∧ (∀ e : String, historyPostSavePipeline (Except.ok ()) (Except.error e) (Except.ok ())
        = Except.error e)
    ∧ (∀ e : String, historyPostSavePipeline (Except.ok ()) (Except.ok ()) (Except.error e)
        = Except.error e)
    ∧ (∀ (store : List HistoryRecord) (pk : Nat),
        (chainValidTo store pk).1.map hkey = (siblingsOf store pk).map hkey)
    ∧ (∀ (store : List HistoryRecord) (removed : HistoryRecord),
        (repair_chain store removed).map (fun r => r.history_id)
          = store.map (fun r => r.history_id)) := by
  refine ⟨?_, ?_, ?_, ?_, ?_, ?_, ?_⟩
  · intro body
    cases body <;> rfl
  · intro e
    rfl
  · intro cancelBody
    cases cancelBody <;> rfl
  · intro e
    rfl
  · intro e
    rfl
  · intro store pk
    exact chainPass_map_hkey _
  · intro store removed
    unfold repair_chain
    cases hp : prevRecord store removed.entity_key removed.valid_from with
    | none => rfl
    | some p =>
      unfold updateHist
      rw [List.map_map]
      refine List.map_congr_left ?_
      intro x _
      by_cases h : x.history_id = p.history_id
      · simp only [Function.comp]
        rw [if_pos h]
        exact h.symm
      · simp only [Function.comp]
        rw [if_neg h]

/-! ### Main-model save semantics and Claim C10 -/

/-- Modelled from the spec: the main model's save path consumes
`skip_history_when_saving` — the library-side post-save hook that records
a new Level-1 HistoryRecord is skipped when the flag is set on the
instance (the flag's consumer lives outside this repository; only its
producers are in `bitemporal_sync.py`). -/
def mainModelSave (hist : List HistoryRecord) (w : MainWrite)
    (wouldRecord : HistoryRecord) : List HistoryRecord :=
  if w.skip_history_when_saving then hist else hist ++ [wouldRecord]

theorem syncDeleteStep_writes (mains : List MainRow) (pk : Nat) :
    ∀ w ∈ (syncDeleteStep mains pk).2, w.skip_history_when_saving = true := by
  unfold syncDeleteStep
  cases mainLookup mains pk with
  | some row =>
    intro w hw
    rcases List.mem_cons.mp hw with rfl | hfalse
    · rfl
    · cases hfalse
  | none =>
    intro w hw
    cases hw

theorem syncUpsertStep_writes (mains : List MainRow) (pk : Nat) (snap : List Int) :
    ∀ w ∈ (syncUpsertStep mains pk snap).2, w.skip_history_when_saving = true := by
  unfold syncUpsertStep
  cases mainLookup mains pk with
  | some row =>
    show ∀ w ∈ (if row.fields = snap then (mains, ([] : List MainWrite))
        else (mainUpsert mains pk snap,
          [(⟨WriteKind.upsert, pk, true⟩ : MainWrite)])).2,
      w.skip_history_when_saving = true
    by_cases hf : row.fields = snap
    · rw [if_pos hf]
      intro w hw
      cases hw
    · rw [if_neg hf]
      intro w hw
      rcases List.mem_cons.mp hw with rfl | hfalse
      · rfl
      · cases hfalse
  | none =>
    intro w hw
    rcases List.mem_cons.mp hw with rfl | hfalse
    · rfl
    · cases hfalse

/-- **C10**: every main-table save or delete the synchronizer performs is
marked `skip_history_when_saving`, so running sync appends no new
HistoryRecord (and hence triggers no new MetaRecord, the Level-2 writer
firing only on History saves): the history store is unchanged by any
write sync performs. -/
theorem C10_sync_never_writes_history
    : (∀ (hist : List HistoryRecord) (mains : List MainRow) (pk now : Nat),
        ∀ w ∈ (sync_record_for_model hist mains pk now).2,
          w.skip_history_when_saving = true)
    ∧ (∀ (hist : List HistoryRecord) (wouldRecord : HistoryRecord)
        (mains : List MainRow) (pk now : Nat),
        ∀ w ∈ (sync_record_for_model hist mains pk now).2,
          mainModelSave hist w wouldRecord = hist) := by
  have hmain : ∀ (hist : List HistoryRecord) (mains : List MainRow) (pk now : Nat),
      ∀ w ∈ (sync_record_for_model hist mains pk now).2,
        w.skip_history_when_saving = true := by
    intro hist mains pk now
    cases heff : effectiveRecord hist pk now with
    | none =>
      rw [sync_eq_of_eff_none heff]
      exact syncDeleteStep_writes mains pk
    | some er =>
      by_cases hdel : er.history_type = HType.deleted
      · rw [sync_eq_of_eff_some_del heff hdel]
        exact syncDeleteStep_writes mains pk
      · rw [sync_eq_of_eff_some_live heff hdel]
        exact syncUpsertStep_writes mains pk er.snapshot
  refine ⟨hmain, ?_⟩
  intro hist wouldRecord mains pk now w hw
  unfold mainModelSave
  rw [if_pos (hmain hist mains pk now w hw)]

/-- Witness for C10 at a concrete input that performs a write. -/
theorem C10_sync_never_writes_history_witness :
    (⟨WriteKind.upsert, 7, true⟩ : MainWrite) ∈ (sync_record_for_model [hC, hD] [] 7 25).2
    ∧ (⟨WriteKind.upsert, 7, true⟩ : MainWrite).skip_history_when_saving = true
    ∧ mainModelSave [hC, hD] ⟨WriteKind.upsert, 7, true⟩ hG = [hC, hD] :=
  ⟨by decide,
    C10_sync_never_writes_history.1 [hC, hD] [] 7 25 ⟨WriteKind.upsert, 7, true⟩ (by decide),
    C10_sync_never_writes_history.2 [hC, hD] hG [] 7 25 ⟨WriteKind.upsert, 7, true⟩ (by decide)⟩

end LexBitemporal
